import Mathlib

/-!
Verification development for the zebra-backend multi-device sync engine
(`internal/handlers/sync.go`, `internal/models/{project,session}.go`,
schema in `internal/db/db.go`).

Modelling conventions:
* UUIDs are `Nat`; the zero UUID (`uuid.Nil`) is `0`.
* Timestamps are `Nat` (server clock ticks).  Postgres `CURRENT_TIMESTAMP`
  is one value per transaction, passed in as `tdb`; Go's `time.Now()` is a
  separate application-clock value `now`.
* The two record tables (`projects`, `timer_sessions`) have the same
  skeleton: `id` primary key, `user_id` owner, a block of mutable columns,
  `device_id`, `is_deleted BOOLEAN DEFAULT FALSE`,
  `created_at`/`updated_at` both `DEFAULT CURRENT_TIMESTAMP`.  The sync
  handler runs the same SQL shapes against both, so the store rows are
  modelled by a record `Rec μ` generic in the block `μ` of mutable
  columns, instantiated twice.
-/

/-- Mutable columns of the `projects` table that the sync upsert rewrites:
`name`, `description`, `color` (`sync.go` lines 70-80). -/
structure ProjectCols where
  name : String
  description : String
  color : String
deriving DecidableEq, Repr

/-- Mutable columns of the `timer_sessions` table that the sync upsert
rewrites: `project_id` (nullable reference), `start_time`, `end_time`,
`description` (`sync.go` lines 103-114). -/
structure SessionCols where
  project_id : Option Nat
  start_time : Nat
  end_time : Nat
  description : String
deriving DecidableEq, Repr

/-- A stored row of either record table: primary key `id`, owner
`user_id`, the table-specific mutable columns `cols`, `device_id`,
`is_deleted`, `created_at`, `updated_at` — exactly the columns of
`projects` / `timer_sessions` in `internal/db/db.go`. -/
structure Rec (μ : Type) where
  id : Nat
  user_id : Nat
  cols : μ
  device_id : String
  is_deleted : Bool
  created_at : Nat
  updated_at : Nat
deriving DecidableEq, Repr

abbrev ProjectRow := Rec ProjectCols
abbrev SessionRow := Rec SessionCols

/-- Wire payload of one incoming record inside a `SyncRequest`
(`handlers.Project` / `handlers.Session`): client-chosen `id` (0 encodes
`uuid.Nil`), a client-supplied `user_id` that the handler ignores, the
mutable columns (of input shape `ν`), `device_id`, and a client-supplied
`is_deleted` flag that the upsert never reads. -/
structure RecIn (ν : Type) where
  id : Nat
  user_id : Nat
  colsIn : ν
  device_id : String
  is_deleted : Bool
deriving DecidableEq, Repr

/-- Wire shape of an incoming project (`handlers.Project`): besides the
three mutable columns it carries client-supplied `created_at` and
`updated_at` timestamps, which the sync handler never reads. -/
structure ProjectColsIn where
  name : String
  description : String
  color : String
  created_at : Nat
  updated_at : Nat
deriving DecidableEq, Repr

abbrev ProjectIn := RecIn ProjectColsIn
abbrev SessionIn := RecIn SessionCols

/-- Projection from the project wire columns to the stored mutable
columns: the upsert writes `name`, `description`, `color` and drops the
client-supplied timestamps. -/
def projCols (c : ProjectColsIn) : ProjectCols :=
  ⟨c.name, c.description, c.color⟩

/-- Projection for sessions: the wire mutable columns coincide with the
stored ones. -/
def sessCols (c : SessionCols) : SessionCols := c

/-- Effect of the `ON CONFLICT (id) DO UPDATE` arm on one matching row:
`SET <mutable columns> = EXCLUDED..., device_id = EXCLUDED.device_id,
updated_at = CURRENT_TIMESTAMP`.  It does not touch `id`, `user_id`,
`is_deleted` or `created_at`. -/
def overwriteRec (π : ν → μ) (r : Rec μ) (p : RecIn ν) (tdb : Nat) : Rec μ :=
  { r with cols := π p.colsIn, device_id := p.device_id, updated_at := tdb }

/-- One `INSERT ... ON CONFLICT (id) DO UPDATE ... WHERE <table>.user_id
= $2` statement (`sync.go` lines 70-93 for projects, 103-128 for
sessions).  If some row already has the incoming `id` the conflict arm
updates exactly the rows matching both the `id` and the `WHERE user_id =
$2` guard; otherwise a fresh row is inserted with the defaulted columns
`is_deleted = false`, `created_at = updated_at = CURRENT_TIMESTAMP`. -/
def upsertRec (π : ν → μ) (rs : List (Rec μ)) (p : RecIn ν) (uid tdb : Nat) :
    List (Rec μ) :=
  if rs.any (fun r => r.id == p.id) then
    rs.map (fun r =>
      if r.id == p.id && r.user_id == uid then overwriteRec π r p tdb else r)
  else
    rs ++ [⟨p.id, uid, π p.colsIn, p.device_id, false, tdb, tdb⟩]

/-- The per-record preamble of the upsert loops (`sync.go` lines 64-68 and
97-101): a `uuid.Nil` id is replaced by a freshly generated one taken
from the generator stream `sup`. -/
def assignId (sup : List Nat) (i : Nat) : Nat × List Nat :=
  if i = 0 then (sup.headD 0, sup.tail) else (i, sup)

/-- The upsert loop over one batch: for each incoming record, assign a
fresh id if absent, force the owner to the authenticated `uid`, and run
`upsertRec`.  Returns the new table plus the unconsumed generator
stream. -/
def upsertRecs (π : ν → μ) :
    List (Rec μ) → List (RecIn ν) → Nat → List Nat → Nat →
    List (Rec μ) × List Nat
  | rs, [], _, sup, _ => (rs, sup)
  | rs, p :: rest, uid, sup, tdb =>
    let (pid, sup') := assignId sup p.id
    upsertRecs π (upsertRec π rs { p with id := pid } uid tdb) rest uid sup' tdb

/-- One tombstoning statement (`sync.go` lines 131-159): `UPDATE <table>
SET is_deleted = true, updated_at = CURRENT_TIMESTAMP WHERE id = ANY($1)
AND user_id = $2`. -/
def deleteRecs (rs : List (Rec μ)) (idsL : List Nat) (uid tdb : Nat) :
    List (Rec μ) :=
  rs.map (fun r =>
    if (idsL.contains r.id) && r.user_id == uid then
      { r with is_deleted := true, updated_at := tdb }
    else r)

/-- List of primary keys of a table. -/
def recIds (rs : List (Rec μ)) : List Nat := rs.map (fun r => r.id)

/-- The table has pairwise distinct primary keys (the `id UUID PRIMARY
KEY` constraint). -/
abbrev IdsNodup (rs : List (Rec μ)) : Prop := (recIds rs).Nodup

/-- First row with the given primary key, if any. -/
def findRec (rs : List (Rec μ)) (i : Nat) : Option (Rec μ) :=
  rs.find? (fun r => r.id == i)

/-- A row of the `device_sync` table: `(user_id, device_id)` primary key
and the per-device watermark `last_sync_time`. -/
structure DeviceSyncRow where
  user_id : Nat
  device_id : String
  last_sync_time : Nat
deriving DecidableEq, Repr

/-- The opening statement of the exchange (`sync.go` lines 49-61):
`INSERT INTO device_sync ... VALUES ($1,$2,$3) ON CONFLICT (user_id,
device_id) DO UPDATE SET last_sync_time = EXCLUDED.last_sync_time
RETURNING last_sync_time`.  In Postgres, `RETURNING` after `ON CONFLICT
DO UPDATE` yields the row as it stands after the insert or update; both
arms have just written `last_sync_time := $3`, so the scanned value is
the client-supplied `req.LastSyncTime`, not the previously stored
watermark.  The second component is that scanned value. -/
def deviceSyncUpsert (ds : List DeviceSyncRow) (uid : Nat) (dev : String)
    (t : Nat) : List DeviceSyncRow × Nat :=
  if ds.any (fun r => r.user_id == uid && r.device_id == dev) then
    (ds.map (fun r =>
      if r.user_id == uid && r.device_id == dev then
        { r with last_sync_time := t }
      else r), t)
  else
    (ds ++ [⟨uid, dev, t⟩], t)

/-- Watermark currently stored for one (owner, device) pair. -/
def findCursor (ds : List DeviceSyncRow) (uid : Nat) (dev : String) :
    Option Nat :=
  (ds.find? (fun r => r.user_id == uid && r.device_id == dev)).map
    (fun r => r.last_sync_time)

/-- The whole persistent state the sync engine touches. -/
structure DB where
  projects : List ProjectRow
  sessions : List SessionRow
  device_sync : List DeviceSyncRow
deriving DecidableEq, Repr

/-- Wire shape of one session in the pull payload: the read-back scans
`id, user_id, project_id, start_time, end_time, description, device_id,
is_deleted` (`sync.go` lines 163-186) — no timestamps. -/
structure SessionOut where
  id : Nat
  user_id : Nat
  project_id : Option Nat
  start_time : Nat
  end_time : Nat
  description : String
  device_id : String
  is_deleted : Bool
deriving DecidableEq, Repr

/-- Wire shape of one project in the pull payload (`sync.go` lines
194-217). -/
structure ProjectOut where
  id : Nat
  user_id : Nat
  name : String
  description : String
  color : String
  device_id : String
  is_deleted : Bool
deriving DecidableEq, Repr

def toSessionOut (s : SessionRow) : SessionOut :=
  ⟨s.id, s.user_id, s.cols.project_id, s.cols.start_time, s.cols.end_time,
    s.cols.description, s.device_id, s.is_deleted⟩

def toProjectOut (p : ProjectRow) : ProjectOut :=
  ⟨p.id, p.user_id, p.cols.name, p.cols.description, p.cols.color,
    p.device_id, p.is_deleted⟩

/-- Decoded `SyncRequest` body (`sync.go` lines 13-20). -/
structure SyncRequest where
  device_id : String
  last_sync_time : Nat
  local_sessions : List SessionIn
  local_projects : List ProjectIn
  deleted_sessions : List Nat
  deleted_projects : List Nat
deriving DecidableEq, Repr

/-- `SyncResponse` body (`sync.go` lines 22-26). -/
structure SyncResponse where
  last_sync_time : Nat
  server_sessions : List SessionOut
  server_projects : List ProjectOut
deriving DecidableEq, Repr

/-- Observable outcome of one exchange: HTTP status, response body (only
on success), and the committed database state. -/
structure ExchangeOut where
  status : Nat
  body : Option SyncResponse
  db : DB
deriving DecidableEq, Repr

/-- True when one of the `n` statements numbered `start .. start+n-1`
fails according to the store-behaviour oracle `ora`. -/
def anyFail (ora : Nat → Bool) (start n : Nat) : Bool :=
  (List.range n).any (fun i => ora (start + i))

/-- The always-successful store behaviour. -/
def noFail : Nat → Bool := fun _ => false

/-- The record-write phase of one exchange, in statement order
(`sync.go` lines 63-159): upsert the pushed projects, then the pushed
sessions (sharing one id-generator stream), then tombstone the deleted
session ids, then the deleted project ids.  The `device_sync` table is
untouched here. -/
def applyWrites (db : DB) (uid : Nat) (req : SyncRequest) (sup : List Nat)
    (tdb : Nat) : DB × List Nat :=
  let (ps1, sup1) := upsertRecs projCols db.projects req.local_projects uid sup tdb
  let (ss1, sup2) := upsertRecs sessCols db.sessions req.local_sessions uid sup1 tdb
  let ss2 := deleteRecs ss1 req.deleted_sessions uid tdb
  let ps2 := deleteRecs ps1 req.deleted_projects uid tdb
  (⟨ps2, ss2, db.device_sync⟩, sup2)

/-- The session read-back of the pull (`sync.go` lines 161-192):
`SELECT ... FROM timer_sessions WHERE user_id = $1 AND updated_at > $2`
— note there is no `is_deleted` filter — scanned into the wire shape. -/
def pullSessions (ss : List SessionRow) (uid cursor : Nat) : List SessionOut :=
  (ss.filter (fun s => s.user_id == uid && decide (cursor < s.updated_at))).map
    toSessionOut

/-- The project read-back of the pull (`sync.go` lines 194-223). -/
def pullProjects (ps : List ProjectRow) (uid cursor : Nat) : List ProjectOut :=
  (ps.filter (fun p => p.user_id == uid && decide (cursor < p.updated_at))).map
    toProjectOut

/-- Whether any SQL statement of the exchange fails under the
store-behaviour oracle `ora`, in the handler's statement order:
statement 0 is the `device_sync` upsert, statements `1 .. np+ns` the
per-record upserts, then one statement per nonempty deleted-id list,
then the two read-back queries, the final cursor `UPDATE`, and `Commit`.
In the handler each statement early-returns 500 on its own failure; as
every such early return produces the same observable outcome (500, no
body, all transaction work discarded by the deferred `Rollback`), the
chain of early returns is observably the disjunction of the per-statement
failure tests. -/
def anyStmtFails (req : SyncRequest) (ora : Nat → Bool) : Bool :=
  let np := req.local_projects.length
  let ns := req.local_sessions.length
  let kDelS := 1 + np + ns
  let kDelP := kDelS + (if req.deleted_sessions.isEmpty then 0 else 1)
  let kQ := kDelP + (if req.deleted_projects.isEmpty then 0 else 1)
  ora 0 || anyFail ora 1 np || anyFail ora (1 + np) ns ||
    ((!req.deleted_sessions.isEmpty) && ora kDelS) ||
    ((!req.deleted_projects.isEmpty) && ora kDelP) ||
    ora kQ || ora (kQ + 1) || ora (kQ + 2) || ora (kQ + 3)

/-- The all-statements-succeed path of one exchange (`sync.go` lines
49-253): the `device_sync` upsert whose `RETURNING` value `deviceLast`
is the client-supplied `req.last_sync_time`, the record writes, the two
read-back queries filtering `user_id = $1 AND updated_at > $2` with `$2
= deviceLast` (and no `is_deleted` filter), the final cursor `UPDATE` to
the Go-side `now`, and the response carrying `now` plus the scanned
rows. -/
def syncSuccess (db : DB) (uid : Nat) (req : SyncRequest) (sup : List Nat)
    (tdb now : Nat) : SyncResponse × DB :=
  let (ds1, deviceLast) :=
    deviceSyncUpsert db.device_sync uid req.device_id req.last_sync_time
  let w := (applyWrites db uid req sup tdb).1
  let ds2 := ds1.map (fun r =>
    if r.user_id == uid && r.device_id == req.device_id then
      { r with last_sync_time := now }
    else r)
  (⟨now, pullSessions w.sessions uid deviceLast,
    pullProjects w.projects uid deviceLast⟩,
   ⟨w.projects, w.sessions, ds2⟩)

/-- One full `SyncData` exchange (`sync.go` lines 28-254).  `uid` is the
authenticated owner (0 encodes `uuid.Nil`: unauthorized), `sup` the
uuid-generator stream, `tdb` the transaction's `CURRENT_TIMESTAMP`,
`now` the Go-side `time.Now()`, and `ora` tells which numbered SQL
statement fails.  Every statement runs inside the one transaction begun
at line 42 and rolled back by the deferred `Rollback` unless `Commit`
succeeds, so on any failure the committed state is the input `db`
unchanged and no body is sent. -/
def syncData (db : DB) (uid : Nat) (req : SyncRequest) (sup : List Nat)
    (tdb now : Nat) (ora : Nat → Bool) : ExchangeOut :=
  if uid = 0 then ⟨401, none, db⟩
  else if anyStmtFails req ora then ⟨500, none, db⟩
  else
    ⟨200, some (syncSuccess db uid req sup tdb now).1,
      (syncSuccess db uid req sup tdb now).2⟩

/-- Insert into a list kept sorted by descending key (model of the SQL
`ORDER BY <key> DESC`; relative order of equal keys is unspecified by
SQL, any fixed choice is a conformant model). -/
def insertDescBy (key : α → Nat) (a : α) : List α → List α
  | [] => [a]
  | b :: l => if key b ≤ key a then a :: b :: l else b :: insertDescBy key a l

/-- Sort by descending key (model of `ORDER BY <key> DESC`). -/
def sortDescBy (key : α → Nat) : List α → List α
  | [] => []
  | a :: l => insertDescBy key a (sortDescBy key l)

/-- `models.GetSessionsByUserID` (`internal/models/session.go` lines
24-34): `SELECT ... FROM timer_sessions WHERE user_id = $1 AND
is_deleted = false ORDER BY start_time DESC`. -/
def getSessionsByUserID (ss : List SessionRow) (uid : Nat) : List SessionRow :=
  sortDescBy (fun s => s.cols.start_time)
    (ss.filter (fun s => s.user_id == uid && s.is_deleted == false))

/-- `models.GetProjectsByUserID` (the projects model file): `SELECT ...
FROM projects WHERE user_id = $1 AND is_deleted = false ORDER BY
created_at DESC`. -/
def getProjectsByUserID (ps : List ProjectRow) (uid : Nat) : List ProjectRow :=
  sortDescBy (fun p => p.created_at)
    (ps.filter (fun p => p.user_id == uid && p.is_deleted == false))

/-- Left-pad a decimal rendering to 2 digits (Go's `Format` zero-pads). -/
def pad2 (n : Nat) : String :=
  if n < 10 then "0" ++ toString n else toString n

/-- Left-pad a decimal rendering to 4 digits. -/
def pad4 (n : Nat) : String :=
  if n < 10 then "000" ++ toString n
  else if n < 100 then "00" ++ toString n
  else if n < 1000 then "0" ++ toString n
  else toString n

/-- RFC 3339 rendering of a UTC civil time, as produced by Go's
`t.UTC().Format(time.RFC3339)`. -/
def rfc3339UTC (ye mo da ho mi se : Nat) : String :=
  pad4 ye ++ "-" ++ pad2 mo ++ "-" ++ pad2 da ++ "T" ++
    pad2 ho ++ ":" ++ pad2 mi ++ ":" ++ pad2 se ++ "Z"

/-- Go's zero `time.Time` is January 1 of year 1, 00:00:00 UTC; this is
`time.Time{}.UTC().Format(time.RFC3339)` as computed in `SyncStatus`
(`sync.go` line 269). -/
def goZeroTimeRFC3339 : String := rfc3339UTC 1 1 1 0 0 0

/-- The `SyncStatus` handler (`sync.go` lines 256-276).  `lookup` is the
outcome of scanning `SELECT last_sync_time FROM user_sync_status WHERE
user_id = $1`: `none` when the query or scan errs (no such row, or a
store failure).  On any lookup error the handler substitutes the
formatted zero time and still answers 200 with a JSON body; only a nil
owner gives a non-200 status. -/
def syncStatus (uid : Nat) (lookup : Option String) : Nat × Option String :=
  if uid = 0 then (401, none)
  else
    match lookup with
    | none => (200, some goZeroTimeRFC3339)
    | some s => (200, some s)

/-- The per-row effect of one conflict-arm update: exactly the function
mapped over the table by `upsertRec` in its conflict branch. -/
def rowStep (π : ν → μ) (uid t : Nat) (p : RecIn ν) (r : Rec μ) : Rec μ :=
  if r.id == p.id && r.user_id == uid then overwriteRec π r p t else r

/-- The per-row effect of a whole batch of conflict-arm updates, in
batch order. -/
def rowFold (π : ν → μ) (uid t : Nat) (batch : List (RecIn ν)) (r : Rec μ) :
    Rec μ :=
  batch.foldl (fun r p => rowStep π uid t p r) r

/-- The per-row effect of one tombstoning statement: exactly the
function mapped over the table by `deleteRecs`. -/
def delRow (L : List Nat) (uid t : Nat) (r : Rec μ) : Rec μ :=
  if (L.contains r.id) && r.user_id == uid then
    { r with is_deleted := true, updated_at := t }
  else r

/-- Forget the server-set `updated_at` of a row ("equal up to
`updated_at` advancing" compares tables through this map). -/
def eraseUpd (r : Rec μ) : Rec μ := { r with updated_at := 0 }

/-- `rowStep` as seen through `eraseUpd`: the timestamp-free residue of
one conflict-arm update. -/
def stepE (π : ν → μ) (uid : Nat) (p : RecIn ν) (e : Rec μ) : Rec μ :=
  if e.id == p.id && e.user_id == uid then
    { e with cols := π p.colsIn, device_id := p.device_id }
  else e

/-- `rowFold` as seen through `eraseUpd`. -/
def foldE (π : ν → μ) (uid : Nat) (batch : List (RecIn ν)) (e : Rec μ) :
    Rec μ :=
  batch.foldl (fun e p => stepE π uid p e) e

/-- `delRow` as seen through `eraseUpd`. -/
def delE (L : List Nat) (uid : Nat) (e : Rec μ) : Rec μ :=
  if (L.contains e.id) && e.user_id == uid then { e with is_deleted := true }
  else e

/-- Two rows agreeing on everything except the mutable columns and
`device_id`. -/
def AgreeCore (e₁ e₂ : Rec μ) : Prop :=
  e₁.id = e₂.id ∧ e₁.user_id = e₂.user_id ∧ e₁.is_deleted = e₂.is_deleted ∧
    e₁.created_at = e₂.created_at ∧ e₁.updated_at = e₂.updated_at

/-- Store state for the cursor counterexample: owner 1 has one project
last updated at time 50, and device "d" of owner 1 has a stored
watermark of 100. -/
def dbC4 : DB :=
  ⟨[⟨7, 1, ⟨"w", "", "c"⟩, "d0", false, 10, 50⟩], [], [⟨1, "d", 100⟩]⟩

/-- An empty push from device "d" whose client-chosen `last_sync_time`
is 5 — far before the stored watermark 100. -/
def reqC4 : SyncRequest := ⟨"d", 5, [], [], [], []⟩

/-- A concrete retry batch (all ids present) for the idempotence
check: one project (id 1), one session (id 2), and deletion lists
naming the nonexistent id 3. -/
def reqW : SyncRequest :=
  ⟨"dev", 0, [⟨2, 5, ⟨none, 1, 2, "s"⟩, "dev", false⟩],
    [⟨1, 5, ⟨"n", "d", "c", 0, 0⟩, "dev", false⟩], [3], [3]⟩

/-! ### Shared helper lemmas about the store operations -/

theorem overwriteRec_id (π : ν → μ) (r : Rec μ) (p : RecIn ν) (t : Nat) :
    (overwriteRec π r p t).id = r.id := rfl

theorem overwriteRec_user (π : ν → μ) (r : Rec μ) (p : RecIn ν) (t : Nat) :
    (overwriteRec π r p t).user_id = r.user_id := rfl

theorem upsertRec_map_of_conflict (π : ν → μ) {rs : List (Rec μ)}
    {p : RecIn ν} {uid t : Nat} (h : rs.any (fun r => r.id == p.id) = true) :
    upsertRec π rs p uid t =
      rs.map (fun r =>
        if r.id == p.id && r.user_id == uid then overwriteRec π r p t else r) := by
  simp [upsertRec, h]

theorem upsertRec_append_of_fresh (π : ν → μ) {rs : List (Rec μ)}
    {p : RecIn ν} {uid t : Nat} (h : p.id ∉ recIds rs) :
    upsertRec π rs p uid t =
      rs ++ [⟨p.id, uid, π p.colsIn, p.device_id, false, t, t⟩] := by
  have hany : rs.any (fun r => r.id == p.id) = false := by
    rw [List.any_eq_false]
    intro r hr
    simp only [beq_iff_eq]
    intro hid
    exact h (by simpa [recIds, List.mem_map] using ⟨r, hr, hid⟩)
  simp [upsertRec, hany]

theorem recIds_upsertRec (π : ν → μ) (rs : List (Rec μ)) (p : RecIn ν)
    (uid t : Nat) :
    recIds (upsertRec π rs p uid t) =
      if rs.any (fun r => r.id == p.id) then recIds rs else recIds rs ++ [p.id] := by
  unfold upsertRec
  split
  · simp only [recIds, List.map_map]
    refine List.map_congr_left ?_
    intro r _
    simp only [Function.comp_apply]
    split <;> rfl
  · simp [recIds]

theorem mem_recIds_upsertRec_self (π : ν → μ) (rs : List (Rec μ))
    (p : RecIn ν) (uid t : Nat) :
    p.id ∈ recIds (upsertRec π rs p uid t) := by
  rw [recIds_upsertRec]
  split
  · next h =>
    rcases List.any_eq_true.mp h with ⟨r, hr, hid⟩
    simp only [beq_iff_eq] at hid
    exact hid ▸ (by simpa [recIds, List.mem_map] using ⟨r, hr, rfl⟩)
  · simp

theorem recIds_subset_upsertRec (π : ν → μ) (rs : List (Rec μ))
    (p : RecIn ν) (uid t : Nat) {a : Nat} (ha : a ∈ recIds rs) :
    a ∈ recIds (upsertRec π rs p uid t) := by
  rw [recIds_upsertRec]
  split
  · exact ha
  · exact List.mem_append_left _ ha

theorem idsNodup_upsertRec (π : ν → μ) {rs : List (Rec μ)} (p : RecIn ν)
    (uid t : Nat) (h : IdsNodup rs) : IdsNodup (upsertRec π rs p uid t) := by
  unfold IdsNodup
  rw [recIds_upsertRec]
  split
  · exact h
  · next hany =>
    have hni : p.id ∉ recIds rs := by
      intro hmem
      rcases (by simpa [recIds, List.mem_map] using hmem :
        ∃ r ∈ rs, r.id = p.id) with ⟨r, hr, hid⟩
      have : rs.any (fun r => r.id == p.id) = true :=
        List.any_eq_true.mpr ⟨r, hr, by simp [hid]⟩
      simp [this] at hany
    have h' : (recIds rs).Nodup := h
    simp [List.nodup_append, h', hni]

theorem rec_eq_of_mem_of_id_eq {rs : List (Rec μ)} {x r : Rec μ}
    (hnd : IdsNodup rs) (hx : x ∈ rs) (hr : r ∈ rs) (h : x.id = r.id) :
    x = r :=
  List.inj_on_of_nodup_map (f := fun r : Rec μ => r.id) hnd hx hr h

theorem find?_eq_of_mem_nodup {rs : List (Rec μ)} {r : Rec μ} {i : Nat}
    (hr : r ∈ rs) (hid : r.id = i) (hnd : IdsNodup rs) :
    rs.find? (fun x => x.id == i) = some r := by
  induction rs with
  | nil => cases hr
  | cons x tl ih =>
    have hnd0 : x.id ∉ recIds tl ∧ (recIds tl).Nodup := by
      simpa [IdsNodup, recIds] using hnd
    by_cases hx : x.id = i
    · have hxr : x = r := by
        rcases List.mem_cons.mp hr with h | h
        · exact h.symm
        · exact absurd
            (by rw [hx, ← hid]
                exact List.mem_map_of_mem (fun r : Rec μ => r.id) h)
            hnd0.1
      rw [List.find?_cons_of_pos _ (by simp [hx])]
      exact congrArg some hxr
    · have hr' : r ∈ tl := by
        rcases List.mem_cons.mp hr with h | h
        · exact absurd (h ▸ hid) hx
        · exact h
      rw [List.find?_cons_of_neg _ (by simp [hx])]
      exact ih hr' hnd0.2

theorem findRec_map_of_id_preserved (f : Rec μ → Rec μ)
    (hf : ∀ x, (f x).id = x.id) (rs : List (Rec μ)) (i : Nat) :
    findRec (rs.map f) i = (findRec rs i).map f := by
  induction rs with
  | nil => rfl
  | cons x tl ih =>
    by_cases hx : x.id = i
    · rw [findRec, List.map_cons, List.find?_cons_of_pos _ (by simp [hf, hx]),
        findRec, List.find?_cons_of_pos _ (by simp [hx])]
      rfl
    · rw [findRec, List.map_cons, List.find?_cons_of_neg _ (by simp [hf, hx]),
        findRec, List.find?_cons_of_neg _ (by simp [hx])]
      exact ih

theorem upsertRec_existing (π : ν → μ) {rs : List (Rec μ)} {r : Rec μ}
    {p : RecIn ν} {uid t : Nat} (hr : r ∈ rs) (hid : r.id = p.id)
    (hu : r.user_id = uid) (hnd : IdsNodup rs) :
    findRec (upsertRec π rs p uid t) p.id = some (overwriteRec π r p t) := by
  have hany : rs.any (fun x => x.id == p.id) = true :=
    List.any_eq_true.mpr ⟨r, hr, by simp [hid]⟩
  rw [upsertRec_map_of_conflict π hany]
  rw [findRec_map_of_id_preserved _ (fun x => by
    show (if x.id == p.id && x.user_id == uid then overwriteRec π x p t else x).id = x.id
    split <;> rfl)]
  rw [findRec, find?_eq_of_mem_nodup hr hid hnd]
  simp only [Option.map_some']
  congr 1
  rw [if_pos (by simp [hid, hu])]

/-- All rows carrying the primary key `i` belong to an owner other than
`uid` (and at least one such row exists): the situation in which the
conflict arm's `WHERE user_id = $2` guard rejects the write. -/
def OtherOwnerAt (rs : List (Rec μ)) (i uid : Nat) : Prop :=
  (∃ x ∈ rs, x.id = i) ∧ ∀ x ∈ rs, x.id = i → x.user_id ≠ uid

theorem upsertRec_noop_of_otherOwner (π : ν → μ) {rs : List (Rec μ)}
    {q : RecIn ν} {uid t : Nat} (h : OtherOwnerAt rs q.id uid) :
    upsertRec π rs q uid t = rs := by
  obtain ⟨⟨x, hx, hxid⟩, hall⟩ := h
  have hany : rs.any (fun r => r.id == q.id) = true :=
    List.any_eq_true.mpr ⟨x, hx, by simp [hxid]⟩
  rw [upsertRec_map_of_conflict π hany]
  have hcong : ∀ r ∈ rs,
      (if r.id == q.id && r.user_id == uid then overwriteRec π r q t else r) = r := by
    intro r hr
    rw [if_neg]
    simp only [Bool.and_eq_true, beq_iff_eq, not_and]
    intro h1 h2
    exact hall r hr h1 h2
  calc rs.map _ = rs.map id := List.map_congr_left (by intro r hr; simpa using hcong r hr)
    _ = rs := List.map_id rs

theorem not_mem_recIds_of_any_eq_false {rs : List (Rec μ)} {i : Nat}
    (h : rs.any (fun r => r.id == i) = false) : i ∉ recIds rs := by
  intro hm
  rcases (by simpa [recIds, List.mem_map] using hm : ∃ r ∈ rs, r.id = i) with
    ⟨r, hr, hid⟩
  have htrue : rs.any (fun r => r.id == i) = true :=
    List.any_eq_true.mpr ⟨r, hr, by simp [hid]⟩
  rw [h] at htrue
  exact Bool.false_ne_true htrue

theorem mem_upsertRec_core (π : ν → μ) {rs : List (Rec μ)} {q : RecIn ν}
    {uid t : Nat} {y : Rec μ} (hy : y ∈ upsertRec π rs q uid t) :
    (∃ x ∈ rs, y.id = x.id ∧ y.user_id = x.user_id) ∨
      (y.id = q.id ∧ y.user_id = uid ∧ q.id ∉ recIds rs) := by
  unfold upsertRec at hy
  split at hy
  · rcases List.mem_map.mp hy with ⟨x0, hx0, rfl⟩
    refine Or.inl ⟨x0, hx0, ?_, ?_⟩
    · show (if x0.id == q.id && x0.user_id == uid then
        overwriteRec π x0 q t else x0).id = x0.id
      split <;> rfl
    · show (if x0.id == q.id && x0.user_id == uid then
        overwriteRec π x0 q t else x0).user_id = x0.user_id
      split <;> rfl
  · next hany =>
    rcases List.mem_append.mp hy with h | h
    · exact Or.inl ⟨y, h, rfl, rfl⟩
    · simp only [List.mem_singleton] at h
      subst h
      exact Or.inr ⟨rfl, rfl,
        not_mem_recIds_of_any_eq_false (Bool.eq_false_iff.mpr hany)⟩

theorem exists_id_upsertRec (π : ν → μ) {rs : List (Rec μ)} {i : Nat}
    (q : RecIn ν) (uid t : Nat) (h : ∃ x ∈ rs, x.id = i) :
    ∃ y ∈ upsertRec π rs q uid t, y.id = i := by
  obtain ⟨x, hx, hxi⟩ := h
  unfold upsertRec
  split
  · refine ⟨_, List.mem_map_of_mem _ hx, ?_⟩
    show (if x.id == q.id && x.user_id == uid then
      overwriteRec π x q t else x).id = i
    split <;> exact hxi
  · exact ⟨x, List.mem_append_left _ hx, hxi⟩

theorem otherOwnerAt_upsertRec (π : ν → μ) {rs : List (Rec μ)} {i uid : Nat}
    (q : RecIn ν) (t : Nat) (h : OtherOwnerAt rs i uid) :
    OtherOwnerAt (upsertRec π rs q uid t) i uid := by
  obtain ⟨hex, hall⟩ := h
  refine ⟨exists_id_upsertRec π q uid t hex, ?_⟩
  intro y hy hyid
  rcases mem_upsertRec_core π hy with ⟨x0, hx0, hids, husers⟩ | ⟨hq, hu, hni⟩
  · rw [husers]
    exact hall x0 hx0 (hids ▸ hyid)
  · exfalso
    obtain ⟨x, hx, hxi⟩ := hex
    exact hni (by
      rw [← hq, hyid, ← hxi]
      exact List.mem_map_of_mem (fun r : Rec μ => r.id) hx)

theorem upsertRec_owner_forced (π : ν → μ) {rs : List (Rec μ)} {q : RecIn ν}
    {uid t : Nat} {y : Rec μ} (hy : y ∈ upsertRec π rs q uid t) :
    y ∈ rs ∨ y.user_id = uid := by
  unfold upsertRec at hy
  split at hy
  · rcases List.mem_map.mp hy with ⟨x0, hx0, rfl⟩
    by_cases hc : (x0.id == q.id && x0.user_id == uid) = true
    · right
      have hu : x0.user_id = uid := by
        simp only [Bool.and_eq_true, beq_iff_eq] at hc
        exact hc.2
      show (if x0.id == q.id && x0.user_id == uid then
        overwriteRec π x0 q t else x0).user_id = uid
      rw [if_pos hc]
      exact hu
    · left
      show (if x0.id == q.id && x0.user_id == uid then
        overwriteRec π x0 q t else x0) ∈ rs
      rw [if_neg hc]
      exact hx0
  · rcases List.mem_append.mp hy with h | h
    · exact Or.inl h
    · right
      simp only [List.mem_singleton] at h
      subst h
      rfl

theorem upsertRecs_skip (π : ν → μ) {p : RecIn ν} {uid : Nat} (hp : p.id ≠ 0)
    (B1 B2 : List (RecIn ν)) :
    ∀ (rs : List (Rec μ)) (sup : List Nat) (t : Nat),
      OtherOwnerAt rs p.id uid →
      upsertRecs π rs (B1 ++ p :: B2) uid sup t =
        upsertRecs π rs (B1 ++ B2) uid sup t := by
  induction B1 with
  | nil =>
    intro rs sup t h
    simp only [List.nil_append, upsertRecs]
    have ha : assignId sup p.id = (p.id, sup) := by simp [assignId, hp]
    rw [ha]
    have hup : upsertRec π rs { p with id := p.id } uid t = rs :=
      upsertRec_noop_of_otherOwner π h
    rw [hup]
  | cons a B1' ih =>
    intro rs sup t h
    rcases hA : assignId sup a.id with ⟨aid, sup'⟩
    simp only [List.cons_append, upsertRecs, hA]
    exact ih _ _ _ (otherOwnerAt_upsertRec π _ _ h)

theorem deleteRecs_mem_match {rs : List (Rec μ)} {r : Rec μ} {L : List Nat}
    {uid t : Nat} (hr : r ∈ rs) (hid : r.id ∈ L) (hu : r.user_id = uid) :
    ({ r with is_deleted := true, updated_at := t }) ∈ deleteRecs rs L uid t := by
  simp only [deleteRecs, List.mem_map]
  exact ⟨r, hr, by rw [if_pos (by simp [hid, hu])]⟩

theorem deleteRecs_mem_nomatch {rs : List (Rec μ)} {r : Rec μ} {L : List Nat}
    {uid t : Nat} (hr : r ∈ rs) (h : r.id ∉ L ∨ r.user_id ≠ uid) :
    r ∈ deleteRecs rs L uid t := by
  simp only [deleteRecs, List.mem_map]
  exact ⟨r, hr, by rw [if_neg (by rcases h with h | h <;> simp [h])]⟩

theorem deleteRecs_length (rs : List (Rec μ)) (L : List Nat) (uid t : Nat) :
    (deleteRecs rs L uid t).length = rs.length :=
  List.length_map _ _

theorem otherOwnerAt_of_mem {rs : List (Rec μ)} {r : Rec μ} {i uid : Nat}
    (hnd : IdsNodup rs) (hr : r ∈ rs) (hid : r.id = i)
    (ho : r.user_id ≠ uid) : OtherOwnerAt rs i uid := by
  refine ⟨⟨r, hr, hid⟩, ?_⟩
  intro x hx hxi
  have hxr : x = r := rec_eq_of_mem_of_id_eq hnd hx hr (hxi.trans hid.symm)
  rw [hxr]
  exact ho

theorem overwrite_mem_upsertRec (π : ν → μ) {rs : List (Rec μ)} {r : Rec μ}
    {p : RecIn ν} {uid t : Nat} (hr : r ∈ rs) (hid : r.id = p.id)
    (hu : r.user_id = uid) :
    overwriteRec π r p t ∈ upsertRec π rs p uid t := by
  have hany : rs.any (fun x => x.id == p.id) = true :=
    List.any_eq_true.mpr ⟨r, hr, by simp [hid]⟩
  rw [upsertRec_map_of_conflict π hany]
  exact List.mem_map.mpr ⟨r, hr, by rw [if_pos (by simp [hid, hu])]⟩

theorem upsertRec_existing_explicit (π : ν → μ) {rs : List (Rec μ)}
    {r : Rec μ} {p : RecIn ν} {uid t : Nat} (hr : r ∈ rs)
    (hid : r.id = p.id) (hu : r.user_id = uid) (hnd : IdsNodup rs) :
    findRec (upsertRec π rs p uid t) p.id =
      some ⟨r.id, uid, π p.colsIn, p.device_id, r.is_deleted, r.created_at, t⟩ := by
  rw [upsertRec_existing π hr hid hu hnd]
  exact congrArg some (by cases r; simp_all [overwriteRec])

/-! ### Claim theorems -/

/-- C1: a push by owner `U` whose record id already exists for `U`
overwrites every mutable field with exactly the submitted values and sets
`updated_at` to the server's transaction time; the later of two
sequential pushes fully determines the stored fields, with no comparison
of the client-supplied timestamps (the payload's `created_at` /
`updated_at` never appear in the result). -/
theorem C1_last_write_wins
    (ps : List ProjectRow) (r : ProjectRow) (p1 p2 : ProjectIn)
    (ss : List SessionRow) (s : SessionRow) (q1 q2 : SessionIn)
    (uid t1 t2 : Nat)
    (hndp : IdsNodup ps) (hrp : r ∈ ps) (hidp1 : r.id = p1.id)
    (hidp2 : r.id = p2.id) (hup : r.user_id = uid)
    (hnds : IdsNodup ss) (hrs : s ∈ ss) (hids1 : s.id = q1.id)
    (hids2 : s.id = q2.id) (hus : s.user_id = uid) :
    findRec (upsertRec projCols ps p2 uid t2) p2.id =
      some ⟨r.id, uid, ⟨p2.colsIn.name, p2.colsIn.description, p2.colsIn.color⟩,
        p2.device_id, r.is_deleted, r.created_at, t2⟩ ∧
    findRec (upsertRec projCols (upsertRec projCols ps p1 uid t1) p2 uid t2) p2.id =
      some ⟨r.id, uid, ⟨p2.colsIn.name, p2.colsIn.description, p2.colsIn.color⟩,
        p2.device_id, r.is_deleted, r.created_at, t2⟩ ∧
    findRec (upsertRec sessCols ss q2 uid t2) q2.id =
      some ⟨s.id, uid, q2.colsIn, q2.device_id, s.is_deleted, s.created_at, t2⟩ ∧
    findRec (upsertRec sessCols (upsertRec sessCols ss q1 uid t1) q2 uid t2) q2.id =
      some ⟨s.id, uid, q2.colsIn, q2.device_id, s.is_deleted, s.created_at, t2⟩ := by
  refine ⟨?_, ?_, ?_, ?_⟩
  · exact upsertRec_existing_explicit projCols hrp hidp2 hup hndp
  · have hr1 : overwriteRec projCols r p1 t1 ∈ upsertRec projCols ps p1 uid t1 :=
      overwrite_mem_upsertRec projCols hrp hidp1 hup
    exact upsertRec_existing_explicit (r := overwriteRec projCols r p1 t1)
      projCols hr1 hidp2 hup (idsNodup_upsertRec projCols p1 uid t1 hndp)
  · exact upsertRec_existing_explicit sessCols hrs hids2 hus hnds
  · have hs1 : overwriteRec sessCols s q1 t1 ∈ upsertRec sessCols ss q1 uid t1 :=
      overwrite_mem_upsertRec sessCols hrs hids1 hus
    exact upsertRec_existing_explicit (r := overwriteRec sessCols s q1 t1)
      sessCols hs1 hids2 hus (idsNodup_upsertRec sessCols q1 uid t1 hnds)

theorem C1_witness :
    findRec (upsertRec projCols [⟨1, 5, ⟨"a", "b", "c"⟩, "d0", false, 0, 0⟩]
        ⟨1, 98, ⟨"u", "v", "w", 3, 4⟩, "f", false⟩ 5 20) 1 =
      some ⟨1, 5, ⟨"u", "v", "w"⟩, "f", false, 0, 20⟩ :=
  (C1_last_write_wins
    [⟨1, 5, ⟨"a", "b", "c"⟩, "d0", false, 0, 0⟩]
    ⟨1, 5, ⟨"a", "b", "c"⟩, "d0", false, 0, 0⟩
    ⟨1, 99, ⟨"x", "y", "z", 7, 8⟩, "e", true⟩
    ⟨1, 98, ⟨"u", "v", "w", 3, 4⟩, "f", false⟩
    [⟨2, 5, ⟨none, 1, 2, "s"⟩, "d0", false, 0, 0⟩]
    ⟨2, 5, ⟨none, 1, 2, "s"⟩, "d0", false, 0, 0⟩
    ⟨2, 97, ⟨some 9, 3, 4, "s1"⟩, "g", true⟩
    ⟨2, 96, ⟨some 8, 5, 6, "s2"⟩, "h", false⟩
    5 10 20
    (by decide) (by decide) (by decide) (by decide) (by decide)
    (by decide) (by decide) (by decide) (by decide) (by decide)).1

/-- C2: pushing a record whose id already exists under a different owner
leaves that owner's record (indeed the whole table) unchanged — the
conflict arm's `WHERE user_id = $2` guard rejects the write as a silent
no-op — and the rest of the batch applies as if the record had not been
pushed at all. -/
theorem C2_ownership_isolation
    (ps : List ProjectRow) (r : ProjectRow) (p : ProjectIn)
    (ss : List SessionRow) (s : SessionRow) (q : SessionIn)
    (uid t : Nat) (B1 B2 : List ProjectIn) (D1 D2 : List SessionIn)
    (sup sup' : List Nat)
    (hndp : IdsNodup ps) (hrp : r ∈ ps) (hidp : r.id = p.id)
    (hop : r.user_id ≠ uid) (hpz : p.id ≠ 0)
    (hnds : IdsNodup ss) (hrs : s ∈ ss) (hids : s.id = q.id)
    (hos : s.user_id ≠ uid) (hqz : q.id ≠ 0) :
    upsertRec projCols ps p uid t = ps ∧
    upsertRec sessCols ss q uid t = ss ∧
    upsertRecs projCols ps (B1 ++ p :: B2) uid sup t =
      upsertRecs projCols ps (B1 ++ B2) uid sup t ∧
    upsertRecs sessCols ss (D1 ++ q :: D2) uid sup' t =
      upsertRecs sessCols ss (D1 ++ D2) uid sup' t := by
  have hOP : OtherOwnerAt ps p.id uid := otherOwnerAt_of_mem hndp hrp hidp hop
  have hOS : OtherOwnerAt ss q.id uid := otherOwnerAt_of_mem hnds hrs hids hos
  exact ⟨upsertRec_noop_of_otherOwner projCols hOP,
    upsertRec_noop_of_otherOwner sessCols hOS,
    upsertRecs_skip projCols hpz B1 B2 ps sup t hOP,
    upsertRecs_skip sessCols hqz D1 D2 ss sup' t hOS⟩

theorem C2_witness :
    upsertRec projCols [⟨1, 7, ⟨"a", "b", "c"⟩, "d0", false, 0, 0⟩]
        ⟨1, 99, ⟨"x", "y", "z", 0, 0⟩, "e", false⟩ 5 20 =
      [⟨1, 7, ⟨"a", "b", "c"⟩, "d0", false, 0, 0⟩] :=
  (C2_ownership_isolation
    [⟨1, 7, ⟨"a", "b", "c"⟩, "d0", false, 0, 0⟩]
    ⟨1, 7, ⟨"a", "b", "c"⟩, "d0", false, 0, 0⟩
    ⟨1, 99, ⟨"x", "y", "z", 0, 0⟩, "e", false⟩
    [⟨2, 7, ⟨none, 1, 2, "s"⟩, "d0", false, 0, 0⟩]
    ⟨2, 7, ⟨none, 1, 2, "s"⟩, "d0", false, 0, 0⟩
    ⟨2, 99, ⟨some 9, 3, 4, "s1"⟩, "e", false⟩
    5 20 [] [] [] [] [] []
    (by decide) (by decide) (by decide) (by decide) (by decide)
    (by decide) (by decide) (by decide) (by decide) (by decide)).1

/-- C7: a pushed record with absent (`uuid.Nil`) id is stored under the
freshly generated id, with defaulted `is_deleted = false` and
`created_at = updated_at` set to the transaction time; and every row a
push can touch or create carries the authenticated owner, never the
client-supplied `user_id`. -/
theorem C7_fresh_id_and_owner
    (ps : List ProjectRow) (p : ProjectIn) (ss : List SessionRow)
    (q : SessionIn) (uid freshP freshS t : Nat) (sup sup' : List Nat)
    (hp0 : p.id = 0) (hfp : freshP ∉ recIds ps)
    (hq0 : q.id = 0) (hfs : freshS ∉ recIds ss) :
    upsertRecs projCols ps [p] uid (freshP :: sup) t =
      (ps ++ [⟨freshP, uid, ⟨p.colsIn.name, p.colsIn.description, p.colsIn.color⟩,
        p.device_id, false, t, t⟩], sup) ∧
    upsertRecs sessCols ss [q] uid (freshS :: sup') t =
      (ss ++ [⟨freshS, uid, q.colsIn, q.device_id, false, t, t⟩], sup') ∧
    (∀ (x : ProjectIn) (y : ProjectRow), y ∈ upsertRec projCols ps x uid t →
      y ∈ ps ∨ y.user_id = uid) ∧
    (∀ (x : SessionIn) (y : SessionRow), y ∈ upsertRec sessCols ss x uid t →
      y ∈ ss ∨ y.user_id = uid) := by
  refine ⟨?_, ?_, fun x y hy => upsertRec_owner_forced projCols hy,
    fun x y hy => upsertRec_owner_forced sessCols hy⟩
  · have ha : assignId (freshP :: sup) p.id = (freshP, sup) := by
      simp [assignId, hp0]
    simp only [upsertRecs, ha]
    rw [upsertRec_append_of_fresh projCols (p := { p with id := freshP }) hfp]
    rfl
  · have ha : assignId (freshS :: sup') q.id = (freshS, sup') := by
      simp [assignId, hq0]
    simp only [upsertRecs, ha]
    rw [upsertRec_append_of_fresh sessCols (p := { q with id := freshS }) hfs]
    rfl

theorem C7_witness :
    upsertRecs projCols ([] : List ProjectRow)
        [⟨0, 42, ⟨"a", "b", "c", 1, 2⟩, "d", true⟩] 5 [77] 9 =
      ([⟨77, 5, ⟨"a", "b", "c"⟩, "d", false, 9, 9⟩], []) :=
  (C7_fresh_id_and_owner [] ⟨0, 42, ⟨"a", "b", "c", 1, 2⟩, "d", true⟩
    [] ⟨0, 42, ⟨none, 1, 2, "s"⟩, "d", true⟩ 5 77 78 9 [] []
    (by decide) (by decide) (by decide) (by decide)).1

/-- C9: upserting onto an existing same-owner row rewrites only the
mutable columns, `device_id` and `updated_at`; the `deleted` flag is not
in the conflict arm's column list, so a tombstoned record stays
tombstoned (`is_deleted` remains `true`) while its fields update. -/
theorem C9_tombstone_not_resurrected
    (ps : List ProjectRow) (r : ProjectRow) (p : ProjectIn)
    (ss : List SessionRow) (s : SessionRow) (q : SessionIn) (uid t : Nat)
    (hndp : IdsNodup ps) (hrp : r ∈ ps) (hidp : r.id = p.id)
    (hup : r.user_id = uid) (hdp : r.is_deleted = true)
    (hnds : IdsNodup ss) (hrs : s ∈ ss) (hids : s.id = q.id)
    (hus : s.user_id = uid) (hds : s.is_deleted = true) :
    findRec (upsertRec projCols ps p uid t) p.id =
      some ⟨r.id, uid, ⟨p.colsIn.name, p.colsIn.description, p.colsIn.color⟩,
        p.device_id, true, r.created_at, t⟩ ∧
    findRec (upsertRec sessCols ss q uid t) q.id =
      some ⟨s.id, uid, q.colsIn, q.device_id, true, s.created_at, t⟩ := by
  constructor
  · have h := upsertRec_existing_explicit (t := t) projCols hrp hidp hup hndp
    rw [hdp] at h
    exact h
  · have h := upsertRec_existing_explicit (t := t) sessCols hrs hids hus hnds
    rw [hds] at h
    exact h

theorem C9_witness :
    findRec (upsertRec projCols [⟨1, 5, ⟨"a", "b", "c"⟩, "d0", true, 0, 10⟩]
        ⟨1, 99, ⟨"x", "y", "z", 7, 8⟩, "e", false⟩ 5 20) 1 =
      some ⟨1, 5, ⟨"x", "y", "z"⟩, "e", true, 0, 20⟩ :=
  (C9_tombstone_not_resurrected
    [⟨1, 5, ⟨"a", "b", "c"⟩, "d0", true, 0, 10⟩]
    ⟨1, 5, ⟨"a", "b", "c"⟩, "d0", true, 0, 10⟩
    ⟨1, 99, ⟨"x", "y", "z", 7, 8⟩, "e", false⟩
    [⟨2, 5, ⟨none, 1, 2, "s"⟩, "d0", true, 0, 10⟩]
    ⟨2, 5, ⟨none, 1, 2, "s"⟩, "d0", true, 0, 10⟩
    ⟨2, 99, ⟨some 9, 3, 4, "s1"⟩, "e", false⟩
    5 20
    (by decide) (by decide) (by decide) (by decide) (by decide)
    (by decide) (by decide) (by decide) (by decide) (by decide)).1

/-- C5 counterexample: an id in the deletion list that is *already
tombstoned* but exists and belongs to the pushing owner is not ignored —
the `UPDATE ... WHERE id = ANY($1) AND user_id = $2` matches it and
refreshes its `updated_at` (here from 10 to 20), so the stored record
changes, contradicting the claim that such ids are silently ignored. -/
theorem C5_counterexample :
    deleteRecs [(⟨1, 2, ⟨"n", "d", "c"⟩, "dev", true, 0, 10⟩ : ProjectRow)]
        [1] 2 20 ≠
      [⟨1, 2, ⟨"n", "d", "c"⟩, "dev", true, 0, 10⟩] ∧
    deleteRecs [(⟨1, 2, ⟨"n", "d", "c"⟩, "dev", true, 0, 10⟩ : ProjectRow)]
        [1] 2 20 =
      [⟨1, 2, ⟨"n", "d", "c"⟩, "dev", true, 0, 20⟩] := by
  decide

/-- C5 (amended): every listed record that exists and belongs to the
owner — whether or not it is already tombstoned — gets `is_deleted =
true` and a refreshed `updated_at`; ids that do not match (nonexistent
id or a different owner) leave their rows untouched; no row is ever
removed and the statement itself cannot fail. -/
theorem C5_tombstone_scope
    (ps : List ProjectRow) (ss : List SessionRow) (L M : List Nat)
    (uid t : Nat) :
    (∀ r ∈ ps, (r.id ∈ L ∧ r.user_id = uid →
        ({ r with is_deleted := true, updated_at := t }) ∈ deleteRecs ps L uid t) ∧
      ((r.id ∉ L ∨ r.user_id ≠ uid) → r ∈ deleteRecs ps L uid t)) ∧
    (deleteRecs ps L uid t).length = ps.length ∧
    (∀ s ∈ ss, (s.id ∈ M ∧ s.user_id = uid →
        ({ s with is_deleted := true, updated_at := t }) ∈ deleteRecs ss M uid t) ∧
      ((s.id ∉ M ∨ s.user_id ≠ uid) → s ∈ deleteRecs ss M uid t)) ∧
    (deleteRecs ss M uid t).length = ss.length :=
  ⟨fun r hr => ⟨fun h => deleteRecs_mem_match hr h.1 h.2,
      fun h => deleteRecs_mem_nomatch hr h⟩,
    deleteRecs_length _ _ _ _,
    fun s hs => ⟨fun h => deleteRecs_mem_match hs h.1 h.2,
      fun h => deleteRecs_mem_nomatch hs h⟩,
    deleteRecs_length _ _ _ _⟩

theorem C5_witness :
    (⟨3, 2, ⟨"n", "d", "c"⟩, "dev", true, 0, 20⟩ : ProjectRow) ∈
      deleteRecs [⟨3, 2, ⟨"n", "d", "c"⟩, "dev", false, 0, 10⟩] [3] 2 20 :=
  ((C5_tombstone_scope [⟨3, 2, ⟨"n", "d", "c"⟩, "dev", false, 0, 10⟩] []
      [3] [] 2 20).1
    ⟨3, 2, ⟨"n", "d", "c"⟩, "dev", false, 0, 10⟩ (by decide)).1 (by decide)

/-- C10: when the `user_sync_status` lookup errs (no row, or a store
failure), `SyncStatus` still answers HTTP 200, with `last_sync_time`
rendered as the RFC 3339 zero time. -/
theorem C10_sync_status_zero_time (uid : Nat) (h : uid ≠ 0) :
    syncStatus uid none = (200, some "0001-01-01T00:00:00Z") := by
  unfold syncStatus
  rw [if_neg h]
  decide

theorem C10_witness :
    syncStatus 1 none = (200, some "0001-01-01T00:00:00Z") :=
  C10_sync_status_zero_time 1 (by decide)

/-- C3: the whole exchange runs inside one transaction; whenever any
statement (the cursor upsert, any per-record upsert, a tombstone update,
a read-back query, the final cursor update, or the commit itself) fails,
the handler returns a non-200 status with no body and the committed
state is exactly the pre-push state — no record of the batch is visible
to any later read. -/
theorem C3_atomic_rollback (db : DB) (uid : Nat) (req : SyncRequest)
    (sup : List Nat) (tdb now : Nat) (ora : Nat → Bool)
    (h : (syncData db uid req sup tdb now ora).status ≠ 200) :
    (syncData db uid req sup tdb now ora).db = db ∧
    (syncData db uid req sup tdb now ora).body = none := by
  unfold syncData at h ⊢
  split_ifs at h ⊢ <;>
    first
      | exact ⟨rfl, rfl⟩
      | exact absurd rfl h

theorem C3_witness :
    (syncData ⟨[], [], []⟩ 1 ⟨"d", 0, [], [], [], []⟩ [] 0 0
        (fun _ => true)).db = ⟨[], [], []⟩ ∧
    (syncData ⟨[], [], []⟩ 1 ⟨"d", 0, [], [], [], []⟩ [] 0 0
        (fun _ => true)).body = none :=
  C3_atomic_rollback ⟨[], [], []⟩ 1 ⟨"d", 0, [], [], [], []⟩ [] 0 0
    (fun _ => true) (by decide)

/-- C4 counterexample: with a stored watermark of 100 for (owner 1,
device "d") and an owner-1 project last updated at 50, an empty push
carrying client-chosen `last_sync_time = 5` gets that project in its
pull payload — the scanned cursor is the client-supplied 5, not the
previously stored 100; a read-back filtered by the prior server-stored
cursor would have been empty. -/
theorem C4_counterexample :
    findCursor dbC4.device_sync 1 "d" = some 100 ∧
    (deviceSyncUpsert dbC4.device_sync 1 "d" 5).2 = 5 ∧
    (syncData dbC4 1 reqC4 [] 60 200 noFail).body.map
        (fun r => r.server_projects) =
      some [⟨7, 1, "w", "", "c", "d0", false⟩] ∧
    (dbC4.projects.filter (fun p =>
        p.user_id == 1 && decide (100 < p.updated_at))).map toProjectOut = [] := by
  decide

/-- C4 (amended): the `device_sync` upsert overwrites the stored
watermark with the client-supplied `last_sync_time`, and the value its
`RETURNING` clause scans back is that same client-supplied value; the
delta read-back therefore returns exactly the owner's post-write records
whose `updated_at` is later than the *client-supplied* cursor, together
with the new `asOf` timestamp, and the stored cursor is then advanced to
the server's `now`. -/
theorem C4_client_supplied_cursor (db : DB) (uid : Nat) (req : SyncRequest)
    (sup : List Nat) (tdb now : Nat) (h : uid ≠ 0) :
    (deviceSyncUpsert db.device_sync uid req.device_id req.last_sync_time).2 =
      req.last_sync_time ∧
    syncData db uid req sup tdb now noFail =
      ⟨200,
        some ⟨now,
          pullSessions ((applyWrites db uid req sup tdb).1).sessions uid
            req.last_sync_time,
          pullProjects ((applyWrites db uid req sup tdb).1).projects uid
            req.last_sync_time⟩,
        ⟨((applyWrites db uid req sup tdb).1).projects,
          ((applyWrites db uid req sup tdb).1).sessions,
          ((deviceSyncUpsert db.device_sync uid req.device_id
              req.last_sync_time).1).map (fun r =>
            if r.user_id == uid && r.device_id == req.device_id then
              { r with last_sync_time := now }
            else r)⟩⟩ := by
  have h2 : (deviceSyncUpsert db.device_sync uid req.device_id
      req.last_sync_time).2 = req.last_sync_time := by
    unfold deviceSyncUpsert
    split <;> rfl
  refine ⟨h2, ?_⟩
  have hA : anyStmtFails req noFail = false := by
    simp [anyStmtFails, anyFail, noFail]
  unfold syncData
  rw [if_neg h, if_neg (by simp [hA])]
  rcases hD : deviceSyncUpsert db.device_sync uid req.device_id
    req.last_sync_time with ⟨ds1, dl⟩
  have hdl : dl = req.last_sync_time := by rw [← h2, hD]
  subst hdl
  unfold syncSuccess
  rw [hD]

theorem C4_witness :
    (deviceSyncUpsert dbC4.device_sync 1 "d" 5).2 = 5 :=
  (C4_client_supplied_cursor dbC4 1 reqC4 [] 60 200 (by decide)).1

theorem mem_insertDescBy (key : α → Nat) (a x : α) (l : List α) :
    x ∈ insertDescBy key a l ↔ x = a ∨ x ∈ l := by
  induction l with
  | nil => simp [insertDescBy]
  | cons b l ih =>
    unfold insertDescBy
    split
    · simp [List.mem_cons]
    · simp only [List.mem_cons, ih]
      tauto

theorem mem_sortDescBy (key : α → Nat) (x : α) (l : List α) :
    x ∈ sortDescBy key l ↔ x ∈ l := by
  induction l with
  | nil => simp [sortDescBy]
  | cons b l ih =>
    simp [sortDescBy, mem_insertDescBy, ih]

/-- C6: the pull read-back includes every owner record past the cursor
regardless of its `deleted` flag (there is no active-only filter on
pulls), while the active-listing queries exclude every tombstoned
record; concretely, pushing session 41 and then deleting it leaves a
pull that returns it flagged deleted and an active listing that omits
it. -/
theorem C6_tombstones_pull_vs_listing
    (ss : List SessionRow) (ps : List ProjectRow) (uid c : Nat)
    (s : SessionRow) (p : ProjectRow) :
    (s ∈ ss → s.user_id = uid → c < s.updated_at →
      toSessionOut s ∈ pullSessions ss uid c) ∧
    (s.is_deleted = true → s ∉ getSessionsByUserID ss uid) ∧
    (p ∈ ps → p.user_id = uid → c < p.updated_at →
      toProjectOut p ∈ pullProjects ps uid c) ∧
    (p.is_deleted = true → p ∉ getProjectsByUserID ps uid) ∧
    ((syncData (syncData ⟨[], [], []⟩ 1
          ⟨"A", 0, [⟨41, 1, ⟨none, 1, 2, "work"⟩, "A", false⟩], [], [], []⟩
          [] 10 11 noFail).db 1 ⟨"A", 11, [], [], [41], []⟩ [] 20 21
        noFail).body.map (fun r => r.server_sessions) =
      some [⟨41, 1, none, 1, 2, "work", "A", true⟩]) ∧
    getSessionsByUserID ((syncData (syncData ⟨[], [], []⟩ 1
          ⟨"A", 0, [⟨41, 1, ⟨none, 1, 2, "work"⟩, "A", false⟩], [], [], []⟩
          [] 10 11 noFail).db 1 ⟨"A", 11, [], [], [41], []⟩ [] 20 21
        noFail).db).sessions 1 = [] := by
  refine ⟨?_, ?_, ?_, ?_, by decide, by decide⟩
  · intro hs hu hc
    exact List.mem_map_of_mem _ (List.mem_filter.mpr ⟨hs, by simp [hu, hc]⟩)
  · intro hdel hmem
    have hm := (mem_sortDescBy _ _ _).mp hmem
    have hf := List.mem_filter.mp hm
    simp [hdel] at hf
  · intro hp hu hc
    exact List.mem_map_of_mem _ (List.mem_filter.mpr ⟨hp, by simp [hu, hc]⟩)
  · intro hdel hmem
    have hm := (mem_sortDescBy _ _ _).mp hmem
    have hf := List.mem_filter.mp hm
    simp [hdel] at hf

theorem C6_witness :
    toSessionOut ⟨9, 4, ⟨none, 0, 1, "x"⟩, "d", true, 0, 5⟩ ∈
      pullSessions [⟨9, 4, ⟨none, 0, 1, "x"⟩, "d", true, 0, 5⟩] 4 2 :=
  (C6_tombstones_pull_vs_listing
    [⟨9, 4, ⟨none, 0, 1, "x"⟩, "d", true, 0, 5⟩] [] 4 2
    ⟨9, 4, ⟨none, 0, 1, "x"⟩, "d", true, 0, 5⟩
    ⟨0, 0, ⟨"", "", ""⟩, "", false, 0, 0⟩).1
    (by decide) (by decide) (by decide)

theorem delRow_id (L : List Nat) (uid t : Nat) (r : Rec μ) :
    (delRow L uid t r).id = r.id := by
  unfold delRow
  split <;> rfl

theorem rowStep_id (π : ν → μ) (uid t : Nat) (p : RecIn ν) (r : Rec μ) :
    (rowStep π uid t p r).id = r.id := by
  unfold rowStep
  split <;> rfl

theorem stepE_core (π : ν → μ) (uid : Nat) (p : RecIn ν) (e : Rec μ) :
    AgreeCore (stepE π uid p e) e := by
  unfold stepE AgreeCore
  split <;> exact ⟨rfl, rfl, rfl, rfl, rfl⟩

theorem deleteRecs_eq_map (rs : List (Rec μ)) (L : List Nat) (uid t : Nat) :
    deleteRecs rs L uid t = rs.map (delRow L uid t) := rfl

theorem delE_id (L : List Nat) (uid : Nat) (e : Rec μ) :
    (delE L uid e).id = e.id := by
  unfold delE
  split <;> rfl

theorem delE_user (L : List Nat) (uid : Nat) (e : Rec μ) :
    (delE L uid e).user_id = e.user_id := by
  unfold delE
  split <;> rfl

theorem stepE_id (π : ν → μ) (uid : Nat) (p : RecIn ν) (e : Rec μ) :
    (stepE π uid p e).id = e.id := by
  unfold stepE
  split <;> rfl

theorem stepE_user (π : ν → μ) (uid : Nat) (p : RecIn ν) (e : Rec μ) :
    (stepE π uid p e).user_id = e.user_id := by
  unfold stepE
  split <;> rfl

theorem eraseUpd_delRow (L : List Nat) (uid t : Nat) (r : Rec μ) :
    eraseUpd (delRow L uid t r) = delE L uid (eraseUpd r) := by
  have hcnd : ((L.contains (eraseUpd r).id) && (eraseUpd r).user_id == uid) =
      ((L.contains r.id) && r.user_id == uid) := rfl
  by_cases hc : ((L.contains r.id) && r.user_id == uid) = true
  · have l : delRow L uid t r = { r with is_deleted := true, updated_at := t } := by
      unfold delRow; rw [if_pos hc]
    have rr : delE L uid (eraseUpd r) = { eraseUpd r with is_deleted := true } := by
      unfold delE; rw [hcnd, if_pos hc]
    rw [l, rr]
    rfl
  · have l : delRow L uid t r = r := by unfold delRow; rw [if_neg hc]
    have rr : delE L uid (eraseUpd r) = eraseUpd r := by
      unfold delE; rw [hcnd, if_neg hc]
    rw [l, rr]

theorem eraseUpd_rowStep (π : ν → μ) (uid t : Nat) (p : RecIn ν) (r : Rec μ) :
    eraseUpd (rowStep π uid t p r) = stepE π uid p (eraseUpd r) := by
  have hcnd : ((eraseUpd r).id == p.id && (eraseUpd r).user_id == uid) =
      (r.id == p.id && r.user_id == uid) := rfl
  by_cases hc : (r.id == p.id && r.user_id == uid) = true
  · have l : rowStep π uid t p r = overwriteRec π r p t := by
      unfold rowStep; rw [if_pos hc]
    have rr : stepE π uid p (eraseUpd r) =
        { eraseUpd r with cols := π p.colsIn, device_id := p.device_id } := by
      unfold stepE; rw [hcnd, if_pos hc]
    rw [l, rr]
    rfl
  · have l : rowStep π uid t p r = r := by unfold rowStep; rw [if_neg hc]
    have rr : stepE π uid p (eraseUpd r) = eraseUpd r := by
      unfold stepE; rw [hcnd, if_neg hc]
    rw [l, rr]

theorem eraseUpd_rowFold (π : ν → μ) (uid t : Nat) :
    ∀ (batch : List (RecIn ν)) (r : Rec μ),
      eraseUpd (rowFold π uid t batch r) = foldE π uid batch (eraseUpd r) := by
  intro batch
  induction batch with
  | nil => intro r; rfl
  | cons p rest ih =>
    intro r
    show eraseUpd (rowFold π uid t rest (rowStep π uid t p r)) =
      foldE π uid rest (stepE π uid p (eraseUpd r))
    rw [ih, eraseUpd_rowStep]

theorem stepE_delE_comm (π : ν → μ) (uid : Nat) (p : RecIn ν) (L : List Nat)
    (e : Rec μ) :
    stepE π uid p (delE L uid e) = delE L uid (stepE π uid p e) := by
  have hcS : ((delE L uid e).id == p.id && (delE L uid e).user_id == uid) =
      (e.id == p.id && e.user_id == uid) := by
    rw [delE_id, delE_user]
  have hcD : ((L.contains (stepE π uid p e).id) &&
        (stepE π uid p e).user_id == uid) =
      ((L.contains e.id) && e.user_id == uid) := by
    rw [stepE_id, stepE_user]
  by_cases h1 : (e.id == p.id && e.user_id == uid) = true
  · have r1 : stepE π uid p e =
        { e with cols := π p.colsIn, device_id := p.device_id } := by
      unfold stepE; rw [if_pos h1]
    by_cases h2 : ((L.contains e.id) && e.user_id == uid) = true
    · have l1 : stepE π uid p (delE L uid e) =
          { delE L uid e with cols := π p.colsIn, device_id := p.device_id } := by
        unfold stepE
        rw [hcS, if_pos h1]
      have l2 : delE L uid e = { e with is_deleted := true } := by
        unfold delE; rw [if_pos h2]
      have r2 : delE L uid (stepE π uid p e) =
          { stepE π uid p e with is_deleted := true } := by
        unfold delE; rw [hcD, if_pos h2]
      rw [l1, l2, r2, r1]
    · have l1 : stepE π uid p (delE L uid e) =
          { delE L uid e with cols := π p.colsIn, device_id := p.device_id } := by
        unfold stepE
        rw [hcS, if_pos h1]
      have l2 : delE L uid e = e := by unfold delE; rw [if_neg h2]
      have r2 : delE L uid (stepE π uid p e) = stepE π uid p e := by
        unfold delE; rw [hcD, if_neg h2]
      rw [l1, l2, r2, r1]
  · have l1 : stepE π uid p (delE L uid e) = delE L uid e := by
      unfold stepE
      rw [hcS, if_neg h1]
    have r1 : stepE π uid p e = e := by unfold stepE; rw [if_neg h1]
    rw [l1, r1]

theorem delE_idem (L : List Nat) (uid : Nat) (e : Rec μ) :
    delE L uid (delE L uid e) = delE L uid e := by
  by_cases hc : ((L.contains e.id) && e.user_id == uid) = true
  · have l : delE L uid e = { e with is_deleted := true } := by
      unfold delE; rw [if_pos hc]
    rw [l]
    have hcnd : ((L.contains ({ e with is_deleted := true } : Rec μ).id) &&
        ({ e with is_deleted := true } : Rec μ).user_id == uid) =
        ((L.contains e.id) && e.user_id == uid) := rfl
    unfold delE
    rw [hcnd, if_pos hc]
  · have l : delE L uid e = e := by unfold delE; rw [if_neg hc]
    rw [l]
    exact l

theorem foldE_delE_comm (π : ν → μ) (uid : Nat) (L : List Nat) :
    ∀ (batch : List (RecIn ν)) (e : Rec μ),
      foldE π uid batch (delE L uid e) = delE L uid (foldE π uid batch e) := by
  intro batch
  induction batch with
  | nil => intro e; rfl
  | cons p rest ih =>
    intro e
    show foldE π uid rest (stepE π uid p (delE L uid e)) =
      delE L uid (foldE π uid rest (stepE π uid p e))
    rw [stepE_delE_comm, ih]

theorem mem_upsertRec_of_id_ne (π : ν → μ) {rs : List (Rec μ)} {q : RecIn ν}
    {uid t : Nat} {r' : Rec μ} (hne : q.id ≠ r'.id)
    (hr' : r' ∈ upsertRec π rs q uid t) : r' ∈ rs := by
  unfold upsertRec at hr'
  split at hr'
  · rcases List.mem_map.mp hr' with ⟨x0, hx0, heq⟩
    have heq' : (if x0.id == q.id && x0.user_id == uid then
        overwriteRec π x0 q t else x0) = r' := heq
    by_cases hc : (x0.id == q.id && x0.user_id == uid) = true
    · exfalso
      rw [if_pos hc] at heq'
      have hxq : x0.id = q.id := by
        simp only [Bool.and_eq_true, beq_iff_eq] at hc
        exact hc.1
      have : r'.id = q.id := by rw [← heq']; exact hxq
      exact hne this.symm
    · rw [if_neg hc] at heq'
      exact heq' ▸ hx0
  · rcases List.mem_append.mp hr' with h | h
    · exact h
    · exfalso
      simp only [List.mem_singleton] at h
      subst h
      exact hne rfl

theorem upsertRec_cols_of_match (π : ν → μ) {rs : List (Rec μ)} {p : RecIn ν}
    {uid t : Nat} {r' : Rec μ} (hr' : r' ∈ upsertRec π rs p uid t)
    (hid : r'.id = p.id) (hu : r'.user_id = uid) :
    r'.cols = π p.colsIn ∧ r'.device_id = p.device_id := by
  unfold upsertRec at hr'
  split at hr'
  · rcases List.mem_map.mp hr' with ⟨x0, hx0, heq⟩
    have heq' : (if x0.id == p.id && x0.user_id == uid then
        overwriteRec π x0 p t else x0) = r' := heq
    by_cases hc : (x0.id == p.id && x0.user_id == uid) = true
    · rw [if_pos hc] at heq'
      rw [← heq']
      exact ⟨rfl, rfl⟩
    · rw [if_neg hc] at heq'
      exfalso
      subst heq'
      exact hc (by simp [hid, hu])
  · next hany =>
    rcases List.mem_append.mp hr' with h | h
    · exfalso
      exact hany (List.any_eq_true.mpr ⟨r', h, by simp [hid]⟩)
    · simp only [List.mem_singleton] at h
      subst h
      exact ⟨rfl, rfl⟩

theorem foldE_agree (π : ν → μ) (uid : Nat) :
    ∀ (rest : List (RecIn ν)) (e₁ e₂ : Rec μ), AgreeCore e₁ e₂ →
      e₁.user_id = uid → (∃ q ∈ rest, q.id = e₁.id) →
      foldE π uid rest e₁ = foldE π uid rest e₂ := by
  intro rest
  induction rest with
  | nil =>
    rintro e₁ e₂ _ _ ⟨q, hq, _⟩
    cases hq
  | cons q rest' ih =>
    rintro e₁ e₂ hA hu hex
    obtain ⟨hid, huser, hdel, hcr, hupd⟩ := hA
    show foldE π uid rest' (stepE π uid q e₁) =
      foldE π uid rest' (stepE π uid q e₂)
    by_cases hq : q.id = e₁.id
    · have h1 : stepE π uid q e₁ =
          { e₁ with cols := π q.colsIn, device_id := q.device_id } := by
        unfold stepE
        rw [if_pos (by simp [hq, hu])]
      have h2 : stepE π uid q e₂ =
          { e₂ with cols := π q.colsIn, device_id := q.device_id } := by
        unfold stepE
        rw [if_pos (by simp [hq, hid, ← huser, hu])]
      have heq : ({ e₁ with cols := π q.colsIn, device_id := q.device_id } : Rec μ) =
          { e₂ with cols := π q.colsIn, device_id := q.device_id } := by
        cases e₁
        cases e₂
        simp_all
      rw [h1, h2, heq]
    · have h1 : stepE π uid q e₁ = e₁ := by
        unfold stepE
        rw [if_neg (by
          intro hcon
          simp only [Bool.and_eq_true, beq_iff_eq] at hcon
          exact hq hcon.1.symm)]
      have h2 : stepE π uid q e₂ = e₂ := by
        unfold stepE
        rw [if_neg (by
          intro hcon
          simp only [Bool.and_eq_true, beq_iff_eq] at hcon
          exact hq ((hid.trans hcon.1).symm))]
      obtain ⟨q₀, hq₀, hq₀id⟩ := hex
      have hq₀' : q₀ ∈ rest' := by
        rcases List.mem_cons.mp hq₀ with h | h
        · exfalso
          subst h
          exact hq hq₀id
        · exact h
      rw [h1, h2]
      exact ih e₁ e₂ ⟨hid, huser, hdel, hcr, hupd⟩ hu ⟨q₀, hq₀', hq₀id⟩

theorem mem_upsertRecs_id_stable (π : ν → μ) {uid t i : Nat} :
    ∀ (rest : List (RecIn ν)) (rs : List (Rec μ)) (sup : List Nat)
      (r' : Rec μ), (∀ q ∈ rest, q.id ≠ 0) → (∀ q ∈ rest, q.id ≠ i) →
      r' ∈ (upsertRecs π rs rest uid sup t).1 → r'.id = i → r' ∈ rs := by
  intro rest
  induction rest with
  | nil =>
    intro rs sup r' _ _ h _
    exact h
  | cons q rest' ih =>
    intro rs sup r' hz hne hr' hid
    have hqz : q.id ≠ 0 := hz q (List.mem_cons_self _ _)
    have hstep : (upsertRecs π rs (q :: rest') uid sup t).1 =
        (upsertRecs π (upsertRec π rs q uid t) rest' uid sup t).1 := by
      simp only [upsertRecs]
      rw [show assignId sup q.id = (q.id, sup) from by simp [assignId, hqz]]
    rw [hstep] at hr'
    have hr'' : r' ∈ upsertRec π rs q uid t :=
      ih _ _ _ (fun a ha => hz a (List.mem_cons_of_mem _ ha))
        (fun a ha => hne a (List.mem_cons_of_mem _ ha)) hr' hid
    exact mem_upsertRec_of_id_ne π
      (fun h => hne q (List.mem_cons_self _ _) (h.trans hid)) hr''

theorem foldE_stable (π : ν → μ) (uid : Nat) :
    ∀ (batch : List (RecIn ν)) (rs : List (Rec μ)) (sup : List Nat)
      (t : Nat) (r' : Rec μ), (∀ p ∈ batch, p.id ≠ 0) →
      r' ∈ (upsertRecs π rs batch uid sup t).1 →
      foldE π uid batch (eraseUpd r') = eraseUpd r' := by
  intro batch
  induction batch with
  | nil =>
    intro rs sup t r' _ _
    rfl
  | cons p rest ih =>
    intro rs sup t r' hz hr'
    have hpz : p.id ≠ 0 := hz p (List.mem_cons_self _ _)
    have hrest : ∀ q ∈ rest, q.id ≠ 0 :=
      fun q hq => hz q (List.mem_cons_of_mem _ hq)
    have hstep : (upsertRecs π rs (p :: rest) uid sup t).1 =
        (upsertRecs π (upsertRec π rs p uid t) rest uid sup t).1 := by
      simp only [upsertRecs]
      rw [show assignId sup p.id = (p.id, sup) from by simp [assignId, hpz]]
    rw [hstep] at hr'
    have hIH : foldE π uid rest (eraseUpd r') = eraseUpd r' :=
      ih _ _ _ _ hrest hr'
    show foldE π uid rest (stepE π uid p (eraseUpd r')) = eraseUpd r'
    by_cases hcm : r'.id = p.id ∧ r'.user_id = uid
    · by_cases hqr : ∃ q ∈ rest, q.id = p.id
      · have hag : foldE π uid rest (stepE π uid p (eraseUpd r')) =
            foldE π uid rest (eraseUpd r') := by
          apply foldE_agree π uid rest
          · exact stepE_core π uid p (eraseUpd r')
          · rw [stepE_user]
            exact hcm.2
          · obtain ⟨q, hq, hqid⟩ := hqr
            refine ⟨q, hq, ?_⟩
            rw [stepE_id]
            exact hqid.trans hcm.1.symm
        rw [hag]
        exact hIH
      · push_neg at hqr
        have hG : r' ∈ upsertRec π rs p uid t :=
          mem_upsertRecs_id_stable π rest _ sup r' hrest
            (fun q hq => hqr q hq) hr' hcm.1
        have hH := upsertRec_cols_of_match π hG hcm.1 hcm.2
        have hse : stepE π uid p (eraseUpd r') = eraseUpd r' := by
          unfold stepE
          rw [if_pos (by
            show ((eraseUpd r').id == p.id && (eraseUpd r').user_id == uid) = true
            have h1 : (eraseUpd r').id = r'.id := rfl
            have h2 : (eraseUpd r').user_id = r'.user_id := rfl
            rw [h1, h2]
            simp [hcm.1, hcm.2])]
          rcases r' with ⟨rid, ruid, rcols, rdev, rdel, rcr, rupd⟩
          obtain ⟨hc1, hc2⟩ := hH
          simp only [eraseUpd]
          simp_all
        rw [hse]
        exact hIH
    · have hse : stepE π uid p (eraseUpd r') = eraseUpd r' := by
        unfold stepE
        rw [if_neg (by
          intro hcon
          simp only [Bool.and_eq_true, beq_iff_eq] at hcon
          exact hcm ⟨hcon.1, hcon.2⟩)]
      rw [hse]
      exact hIH

theorem upsertRecs_map_of_present (π : ν → μ) (uid t : Nat) :
    ∀ (batch : List (RecIn ν)) (rs : List (Rec μ)) (sup : List Nat),
      (∀ p ∈ batch, p.id ≠ 0) → (∀ p ∈ batch, ∃ x ∈ rs, x.id = p.id) →
      (upsertRecs π rs batch uid sup t).1 = rs.map (rowFold π uid t batch) := by
  intro batch
  induction batch with
  | nil =>
    intro rs sup _ _
    show rs = rs.map (rowFold π uid t [])
    calc rs = rs.map id := (List.map_id rs).symm
      _ = rs.map (rowFold π uid t []) := List.map_congr_left (fun r _ => rfl)
  | cons p rest ih =>
    intro rs sup hz hpres
    have hpz : p.id ≠ 0 := hz p (List.mem_cons_self _ _)
    have hstep : (upsertRecs π rs (p :: rest) uid sup t).1 =
        (upsertRecs π (upsertRec π rs p uid t) rest uid sup t).1 := by
      simp only [upsertRecs]
      rw [show assignId sup p.id = (p.id, sup) from by simp [assignId, hpz]]
    rw [hstep]
    have hany : rs.any (fun r => r.id == p.id) = true := by
      obtain ⟨x, hx, hxi⟩ := hpres p (List.mem_cons_self _ _)
      exact List.any_eq_true.mpr ⟨x, hx, by simp [hxi]⟩
    rw [upsertRec_map_of_conflict π hany]
    have hpres' : ∀ q ∈ rest, ∃ x ∈ rs.map (fun r =>
        if r.id == p.id && r.user_id == uid then overwriteRec π r p t else r),
        x.id = q.id := by
      intro q hq
      obtain ⟨x, hx, hxi⟩ := hpres q (List.mem_cons_of_mem _ hq)
      refine ⟨_, List.mem_map_of_mem _ hx, ?_⟩
      show (if x.id == p.id && x.user_id == uid then
        overwriteRec π x p t else x).id = q.id
      split <;> exact hxi
    rw [ih _ sup (fun q hq => hz q (List.mem_cons_of_mem _ hq)) hpres']
    rw [List.map_map]
    refine List.map_congr_left ?_
    intro r _
    rfl

theorem exists_id_upsertRecs (π : ν → μ) (uid t : Nat) :
    ∀ (batch : List (RecIn ν)) (rs : List (Rec μ)) (sup : List Nat) {i : Nat},
      (∃ x ∈ rs, x.id = i) →
      ∃ x ∈ (upsertRecs π rs batch uid sup t).1, x.id = i := by
  intro batch
  induction batch with
  | nil =>
    intro rs sup i h
    exact h
  | cons p rest ih =>
    intro rs sup i h
    rcases hA : assignId sup p.id with ⟨pid, sup'⟩
    have hstep : (upsertRecs π rs (p :: rest) uid sup t).1 =
        (upsertRecs π (upsertRec π rs { p with id := pid } uid t) rest uid
          sup' t).1 := by
      simp only [upsertRecs, hA]
    rw [hstep]
    exact ih _ _ (exists_id_upsertRec π _ uid t h)

theorem batch_ids_present_after (π : ν → μ) (uid t : Nat) :
    ∀ (batch : List (RecIn ν)) (rs : List (Rec μ)) (sup : List Nat),
      (∀ p ∈ batch, p.id ≠ 0) →
      ∀ p ∈ batch, ∃ x ∈ (upsertRecs π rs batch uid sup t).1, x.id = p.id := by
  intro batch
  induction batch with
  | nil =>
    intro rs sup _ p hp
    cases hp
  | cons q rest ih =>
    intro rs sup hz p hp
    have hqz : q.id ≠ 0 := hz q (List.mem_cons_self _ _)
    have hstep : (upsertRecs π rs (q :: rest) uid sup t).1 =
        (upsertRecs π (upsertRec π rs q uid t) rest uid sup t).1 := by
      simp only [upsertRecs]
      rw [show assignId sup q.id = (q.id, sup) from by simp [assignId, hqz]]
    rw [hstep]
    rcases List.mem_cons.mp hp with h | h
    · subst h
      apply exists_id_upsertRecs
      have hm := mem_recIds_upsertRec_self π rs p uid t
      exact (by simpa [recIds, List.mem_map] using hm :
        ∃ x ∈ upsertRec π rs p uid t, x.id = p.id)
    · exact ih _ _ (fun a ha => hz a (List.mem_cons_of_mem _ ha)) p h

theorem writePhase_idem (π : ν → μ) (uid : Nat) (batch : List (RecIn ν))
    (L : List Nat) (rs : List (Rec μ)) (sup sup' : List Nat) (t1 t2 : Nat)
    (hz : ∀ p ∈ batch, p.id ≠ 0) :
    (deleteRecs (upsertRecs π (deleteRecs (upsertRecs π rs batch uid sup t1).1
        L uid t1) batch uid sup' t2).1 L uid t2).map eraseUpd =
      (deleteRecs (upsertRecs π rs batch uid sup t1).1 L uid t1).map
        eraseUpd := by
  set U := (upsertRecs π rs batch uid sup t1).1 with hU
  set d1 := deleteRecs U L uid t1 with hd1
  have hpres : ∀ p ∈ batch, ∃ x ∈ d1, x.id = p.id := by
    intro p hp
    obtain ⟨x, hx, hxi⟩ := batch_ids_present_after π uid t1 batch rs sup hz p hp
    refine ⟨delRow L uid t1 x, ?_, by rw [delRow_id]; exact hxi⟩
    rw [hd1, deleteRecs_eq_map]
    exact List.mem_map_of_mem _ hx
  rw [upsertRecs_map_of_present π uid t2 batch d1 sup' hz hpres]
  rw [deleteRecs_eq_map (d1.map (rowFold π uid t2 batch)) L uid t2]
  simp only [List.map_map]
  refine List.map_congr_left ?_
  intro r hr
  show eraseUpd (delRow L uid t2 (rowFold π uid t2 batch r)) = eraseUpd r
  rw [eraseUpd_delRow, eraseUpd_rowFold]
  rw [hd1, deleteRecs_eq_map] at hr
  rcases List.mem_map.mp hr with ⟨u, hu, rfl⟩
  rw [eraseUpd_delRow]
  rw [foldE_delE_comm, delE_idem]
  rw [foldE_stable π uid batch rs sup t1 u hz hu]

/-- C8: re-applying the same push batch (all record ids present) to the
store is idempotent up to `updated_at` advancing — the second
application creates no additional records and changes no field values.
-/
theorem C8_idempotent_retry (db : DB) (uid : Nat) (req : SyncRequest)
    (sup sup' : List Nat) (t1 t2 : Nat)
    (hp : ∀ p ∈ req.local_projects, p.id ≠ 0)
    (hs : ∀ s ∈ req.local_sessions, s.id ≠ 0) :
    ((applyWrites (applyWrites db uid req sup t1).1 uid req sup' t2).1).projects.map
        eraseUpd =
      ((applyWrites db uid req sup t1).1).projects.map eraseUpd ∧
    ((applyWrites (applyWrites db uid req sup t1).1 uid req sup' t2).1).sessions.map
        eraseUpd =
      ((applyWrites db uid req sup t1).1).sessions.map eraseUpd ∧
    ((applyWrites (applyWrites db uid req sup t1).1 uid req sup' t2).1).projects.length =
      ((applyWrites db uid req sup t1).1).projects.length ∧
    ((applyWrites (applyWrites db uid req sup t1).1 uid req sup' t2).1).sessions.length =
      ((applyWrites db uid req sup t1).1).sessions.length := by
  have h1 := writePhase_idem projCols uid req.local_projects
    req.deleted_projects db.projects sup sup' t1 t2 hp
  have h2 := writePhase_idem sessCols uid req.local_sessions
    req.deleted_sessions db.sessions
    ((upsertRecs projCols db.projects req.local_projects uid sup t1).2)
    ((upsertRecs projCols ((applyWrites db uid req sup t1).1).projects
      req.local_projects uid sup' t2).2) t1 t2 hs
  refine ⟨h1, h2, ?_, ?_⟩
  · have hl := congrArg List.length h1
    simpa using hl
  · have hl := congrArg List.length h2
    simpa using hl

theorem C8_witness :
    ((applyWrites (applyWrites ⟨[], [], []⟩ 5 reqW [] 10).1 5 reqW []
        20).1).projects.map eraseUpd =
      ((applyWrites ⟨[], [], []⟩ 5 reqW [] 10).1).projects.map eraseUpd :=
  (C8_idempotent_retry ⟨[], [], []⟩ 5 reqW [] [] 10 20 (by decide)
    (by decide)).1
